import Mathlib

/-!
Verification of the lazy_containers repository: a shallow embedding of
src/slice_utils.py, src/lazy_dict.py, src/lazy_list.py and the operator
layer of src/lazy_base.py, together with theorems settling the frozen
claims about the natural-language specification.

Conventions of the embedding:
 * Python integers are Lean Int; Python floor division and floor modulus
   on integers are Int.fdiv and Int.fmod.
 * Fallible Python code (code that may raise) returns Option: none models
   a raised exception at that point.
 * Mutable objects become explicit state records threaded through the
   operations; a Python method that mutates self and may raise returns a
   pair of its result (an Option) and the updated state, so that the
   state changes performed before an exception are kept, exactly as in
   the source.
 * Each state record additionally carries a calls field counting, per
   index, how many times user-supplied recurrence/getter code was
   invoked there.  This is pure instrumentation (the counting wrapper
   the specification itself proposes for the memoization property); it
   is written only where the source invokes user code and read nowhere.
-/

/-! ## slice_utils.py -/

/-- Embeds sign from src/slice_utils.py: -1, 1 or 0 by trichotomy. -/
def sign (x : Int) : Int :=
  if x < 0 then -1 else if x > 0 then 1 else 0

/-- A Python slice object: any of start, stop, step may be None. -/
structure PySlice where
  start : Option Int
  stop : Option Int
  step : Option Int
deriving DecidableEq

/-- Embeds defaulted_slice: start defaults to 0, step to 1, stop stays. -/
def defaulted_slice (slice_ : PySlice) : PySlice :=
  { start := some (slice_.start.getD 0), stop := slice_.stop,
    step := some (slice_.step.getD 1) }

/-- The while-condition of generate_slice:
    (stop is None) or (sign(stop - idx) * sign_step > 0). -/
def slice_cond (stop : Option Int) (sign_step idx : Int) : Bool :=
  match stop with
  | none => true
  | some st => decide (sign (st - idx) * sign_step > 0)

/-- The loop of generate_slice, produced up to fuel elements: starting at
    idx, yield and advance by step while the condition holds. -/
def gen_slice_aux (stop : Option Int) (step sign_step : Int) : Int → Nat → List Int
  | _, 0 => []
  | idx, n + 1 =>
    if slice_cond stop sign_step idx then
      idx :: gen_slice_aux stop step sign_step (idx + step) n
    else
      []

/-- Embeds generate_slice from src/slice_utils.py.  The source is a
    generator that can run forever when stop is None; the embedding
    returns the first fuel elements of the generated sequence (all of it
    when the generator stops earlier). -/
def generate_slice (slice_ : PySlice) (fuel : Nat) : List Int :=
  let d := defaulted_slice slice_
  gen_slice_aux d.stop (d.step.getD 0) (sign (d.step.getD 0)) (d.start.getD 0) fuel

/-- Embeds get_idx_in_slice from src/slice_utils.py.  Note that the
    source unpacks stop but never uses it; the embedding mirrors that.
    Python integer % and / (both arguments ints, Python 2) are floor
    modulus and floor division, Int.fmod and Int.fdiv. -/
def get_idx_in_slice (slice_ : PySlice) (idx : Int) : Option Int :=
  let d := defaulted_slice slice_
  let start := d.start.getD 0
  let step := d.step.getD 0
  if idx = start then some 0
  else if step = 0 then none
  else if sign step * sign (idx - start) ≤ 0 then none
  else
    let num := idx - start
    let denom := step
    if num.fmod denom ≠ 0 then none
    else some (num.fdiv denom)

/-! ## Python list indexing

Python list subscripts accept negative positions counting from the end
and raise IndexError outside [-len, len). -/

/-- Reading xs[i] with Python list semantics; none models IndexError. -/
def py_list_get {α : Type} (xs : List α) (i : Int) : Option α :=
  let j := if i < 0 then i + xs.length else i
  if 0 ≤ j ∧ j < (xs.length : Int) then xs[j.toNat]? else none

/-- Writing xs[i] = v with Python list semantics; none models IndexError. -/
def py_list_set {α : Type} (xs : List α) (i : Int) (v : α) : Option (List α) :=
  let j := if i < 0 then i + xs.length else i
  if 0 ≤ j ∧ j < (xs.length : Int) then some (xs.set j.toNat v) else none

/-! ## lazy_dict.py -/

/-- State of a LazyDict.  The source invokes self.fn(self, idx): the
    recurrence receives the container itself and may read further
    indices through it (possibly triggering further computation).  A
    total shallow embedding cannot store the container inside its own
    field type, so here the recurrence receives the current cache
    contents; the claims under verification quantify over the recurrence
    and concern only the caching discipline around each invocation.
    calls is the instrumentation counter described in the file header. -/
structure LazyDict (κ α : Type) where
  fn : (κ → Option α) → κ → Option α
  vals : κ → Option α
  calls : κ → Nat

/-- Embeds LazyDict.__init__ for a callable initializer (the branches for
    an indexable, a constant, and the absent initializer each build a
    recurrence of this same type, so the claims, which quantify over fn,
    cover them as well). -/
def mkLazyDict {κ α : Type} (f : (κ → Option α) → κ → Option α) : LazyDict κ α :=
  { fn := f, vals := fun _ => none, calls := fun _ => 0 }

/-- Embeds LazyDict.getidx: compute self.vals[idx] only if needed.  If
    idx is cached the recurrence is not consulted; otherwise fn is
    invoked (counted) and, when it returns rather than raises, the
    result is stored and returned. -/
def LazyDict.getidx {κ α : Type} [DecidableEq κ] (d : LazyDict κ α) (idx : κ) :
    Option α × LazyDict κ α :=
  match d.vals idx with
  | some v => (some v, d)
  | none =>
    match d.fn d.vals idx with
    | some v =>
      (some v,
        { d with
          vals := fun j => if j = idx then some v else d.vals j,
          calls := fun j => if j = idx then d.calls j + 1 else d.calls j })
    | none =>
      (none,
        { d with calls := fun j => if j = idx then d.calls j + 1 else d.calls j })

/-- A subscript passed to __setitem__: either an ordinary key or a slice. -/
inductive PyKey (κ : Type) where
  | idx (k : κ)
  | slc (s : PySlice)

/-- Embeds LazyDict.__setitem__: self.vals[x] = val.  Python slice
    objects are unhashable, so when x is a slice the dict assignment
    itself raises TypeError and the state is unchanged (the source
    comment: won't allow setting slices, just like normal dicts); for an
    ordinary key the value is stored unconditionally, bypassing fn. -/
def dict_setitem {κ α : Type} [DecidableEq κ] (d : LazyDict κ α) (x : PyKey κ)
    (val : α) : Option (LazyDict κ α) :=
  match x with
  | .idx k => some { d with vals := fun j => if j = k then some val else d.vals j }
  | .slc _ => none

/-! ## lazy_base.py -/

/-- Python runtime errors relevant to the operator layer. -/
inductive PyErr where
  | unboundLocal
deriving DecidableEq

/-- Embeds LazyBase.__abs__.  Its body is

      other = self.ensure_indexable(other)
      return self.__class__(lambda x, i: abs(self[i]))

    The first statement reads the local name other before any assignment
    to it (other is not a parameter of this unary method), so every
    application raises UnboundLocalError and the lambda is never built:
    the embedding of the method is the raised error.  (Compare __neg__,
    which has no such line and does return a new lazy object.) -/
def LazyBase_abs_dict {κ α : Type} (_self : LazyDict κ α) :
    Except PyErr (LazyDict κ α) :=
  .error .unboundLocal

/-! ## lazy_list.py -/

/-- A getter installed in a range-definition.  The source stores plain
    Python functions; two shapes occur, kept apart here because they
    behave differently under invocation:
     * fn f: a function of (vals, idx) — the callable, indexable and
       constant branches of get_getter_and_len, and the lambdas built by
       the operator layer; invoking it does not change it.  A none
       result models the function raising.
     * iter rest: the one-shot branch, lambda vals, idx: arg.next();
       invoking it pops the next element of the remaining stream and
       raises StopIteration (none) once the stream is exhausted. -/
inductive GetterK (α : Type) where
  | fn (f : List α → Int → Option α)
  | iter (rest : List α)

/-- Calling nextgetter(arr, idx): result (none models an exception) and
    the getter afterwards (only the one-shot kind changes). -/
def invoke_getter {α : Type} : GetterK α → List α → Int → Option α × GetterK α
  | .fn f, arr, i => (f arr i, .fn f)
  | .iter [], _, _ => (none, .iter [])
  | .iter (x :: xs), _, _ => (some x, .iter xs)

/-- An initializer argument of LazyList.__init__ / setslice, one
    constructor per branch of get_getter_and_len, tested in source
    order: callable, indexable (with its length, when the object also
    has __len__), iterable (one-shot, with its length when it has
    __len__), and any other constant.  The absent-initializer branch
    (arg is None) produces lambda vals, idx: None, the constant getter
    at the value None; at element type Option β that is const none, so
    it is subsumed by the const constructor. -/
inductive ListArg (α : Type) where
  | callable (f : List α → Int → Option α)
  | indexable (f : Int → Option α) (len : Option Int)
  | iterable (xs : List α) (len : Option Int)
  | const (c : α)

/-- Embeds LazyList.get_getter_and_len: interpret the initializer as a
    getter plus an optional length.  (The source wraps the length in a
    lambda to delay len(arg); the embedded arguments are immutable, so
    the delayed value is the stored one.) -/
def get_getter_and_len {α : Type} : ListArg α → GetterK α × Option Int
  | .callable f => (.fn f, none)
  | .indexable f len => (.fn (fun _vals idx => f idx), len)
  | .iterable xs len => (.iter xs, len)
  | .const c => (.fn (fun _vals _idx => some c), none)

/-- A registered range-definition: (slice, getter, length function). -/
structure RangeDef (α : Type) where
  slc : PySlice
  getter : GetterK α
  len : Option Int

/-- State of a LazyList (named LazyListPy here because Mathlib already
    declares LazyList): the computed prefix arr, the ordered
    range-definitions, the cached length bound len_, and the
    instrumentation counter calls (per absolute index, how many times
    any getter was invoked there). -/
structure LazyListPy (α : Type) where
  arr : List α
  nextgetters : List (RangeDef α)
  len_ : Option Int
  calls : Int → Nat

/-- Embeds LazyList.__init__: empty prefix and a single range-definition
    covering slice(0, None, 1). -/
def mkLazyList {α : Type} (arg : ListArg α) : LazyListPy α :=
  { arr := [],
    nextgetters := [⟨⟨some 0, none, some 1⟩, (get_getter_and_len arg).1,
      (get_getter_and_len arg).2⟩],
    len_ := none,
    calls := fun _ => 0 }

/-- Embeds LazyList.get_next_with_getter: locate idx in the slice; if
    not covered, (None, False) without touching the getter; otherwise
    invoke the getter on (self.arr, slice_idx), catching any exception
    as failure.  Result: (value if successful, getter afterwards,
    whether the getter was invoked). -/
def get_next_with_getter {α : Type} (arr : List α) (idx : Int) (slice_ : PySlice)
    (g : GetterK α) : Option α × GetterK α × Bool :=
  match get_idx_in_slice slice_ idx with
  | none => (none, g, false)
  | some slice_idx =>
    ⟨(invoke_getter g arr slice_idx).1, (invoke_getter g arr slice_idx).2, true⟩

/-- The loop of LazyList.get_next over the registered definitions, in
    registration order, threading the last successful value (acc plays
    final_val/found_val).  Returns the final value, the definitions with
    their getters as updated by the invocations, and how many getters
    were invoked. -/
def get_next_go {α : Type} (arr : List α) (idx : Int) :
    List (RangeDef α) → Option α → Option α × List (RangeDef α) × Nat
  | [], acc => (acc, [], 0)
  | d :: rest, acc =>
    let r := get_next_with_getter arr idx d.slc d.getter
    let t := get_next_go arr idx rest
      (match r.1 with
       | some v => some v
       | none => acc)
    ⟨t.1, { d with getter := r.2.1 } :: t.2.1, t.2.2 + (if r.2.2 then 1 else 0)⟩

/-- Embeds LazyList.get_next: run the loop; if some definition produced
    a value, return the last successful one; otherwise record the
    current position as the final length (self.len_ = idx) and raise
    StopIteration (none).  Either way the updated getters and the
    invocation count are kept — exceptions do not roll state back. -/
def get_next {α : Type} (s : LazyListPy α) (idx : Int) : Option α × LazyListPy α :=
  let r := get_next_go s.arr idx s.nextgetters none
  let calls' := fun j => if j = idx then s.calls j + r.2.2 else s.calls j
  match r.1 with
  | some v => (some v, { s with nextgetters := r.2.1, calls := calls' })
  | none => (none, { s with nextgetters := r.2.1, calls := calls', len_ := some idx })

/-- The while-loop of LazyList.fill_to with explicit fuel: while
    idx >= len(self.arr), append self.get_next(len(self.arr)); a Bool
    result false models the StopIteration escaping to the caller.
    fill_to always supplies enough fuel for the loop to reach its exit
    condition, so the fuel-exhausted base case is unreachable from it
    (it answers whether the exit condition already holds). -/
def fill_to_go {α : Type} : Nat → LazyListPy α → Int → Bool × LazyListPy α
  | 0, s, idx => (decide (idx < (s.arr.length : Int)), s)
  | fuel + 1, s, idx =>
    if idx < (s.arr.length : Int) then (true, s)
    else
      match get_next s s.arr.length with
      | (some v, s1) => fill_to_go fuel { s1 with arr := s1.arr ++ [v] } idx
      | (none, s1) => (false, s1)

/-- Embeds LazyList.fill_to: fills arr up to idx (each successful loop
    iteration grows arr by one, so idx + 1 - len(arr) iterations always
    suffice as fuel). -/
def fill_to {α : Type} (s : LazyListPy α) (idx : Int) : Bool × LazyListPy α :=
  fill_to_go (idx + 1 - s.arr.length).toNat s idx

/-- Embeds LazyList.getidx: fill_to(idx), then return self.arr[idx]
    (Python list indexing, so negative idx reads from the end of the
    computed prefix); a raise inside fill_to propagates. -/
def LazyListPy.getidx {α : Type} (s : LazyListPy α) (idx : Int) : Option α × LazyListPy α :=
  match fill_to s idx with
  | (true, s1) => (py_list_get s1.arr idx, s1)
  | (false, s1) => (none, s1)

/-- Embeds LazyList.setidx: fill_to(x), then self.arr[x] = val; a Bool
    result false models a raise (from fill_to or from the subscript). -/
def LazyListPy.setidx {α : Type} (s : LazyListPy α) (x : Int) (val : α) :
    Bool × LazyListPy α :=
  match fill_to s x with
  | (true, s1) =>
    match py_list_set s1.arr x val with
    | some arr2 => (true, { s1 with arr := arr2 })
    | none => (false, s1)
  | (false, s1) => (false, s1)

/-- Embeds LazyList.setslice: interpret val like an initializer, append
    the new range-definition, and invalidate the cached length. -/
def LazyListPy.setslice {α : Type} (s : LazyListPy α) (slice_ : PySlice)
    (val : ListArg α) : LazyListPy α :=
  { s with
    nextgetters := s.nextgetters ++
      [⟨slice_, (get_getter_and_len val).1, (get_getter_and_len val).2⟩],
    len_ := none }

/-- The loop of LazyList.set_len: fold the definitions' length results
    into min_len; an unknown length (None) returns early WITHOUT
    assigning self.len_ — the outer none models that early return, some
    m the fall-through assignment self.len_ = m. -/
def set_len_go {α : Type} : Option Int → List (RangeDef α) → Option (Option Int)
  | min_len, [] => some min_len
  | min_len, d :: rest =>
    match d.len with
    | none => none
    | some lv =>
      set_len_go
        (match min_len with
         | none => some lv
         | some m => if lv < m then some lv else some m) rest

/-- Embeds LazyList.set_len: min_len starts at self.len_. -/
def set_len {α : Type} (s : LazyListPy α) : LazyListPy α :=
  match set_len_go s.len_ s.nextgetters with
  | none => s
  | some m => { s with len_ := m }

/-- Embeds LazyList.actual_len: recompute len_ only when it is unset,
    and return it. -/
def actual_len {α : Type} (s : LazyListPy α) : Option Int × LazyListPy α :=
  if s.len_ = none then ((set_len s).len_, set_len s) else (s.len_, s)

/-- Embeds LazyList.__len__: actual_len coerced, None becoming 0. -/
def py_len {α : Type} (s : LazyListPy α) : Int × LazyListPy α :=
  ((actual_len s).1.getD 0, (actual_len s).2)

/-- Embeds LazyBase.__abs__ as inherited by LazyListPy; see
    LazyBase_abs_dict — the unbound local read makes every application
    raise before anything else happens. -/
def LazyBase_abs_list {α : Type} (_self : LazyListPy α) :
    Except PyErr (LazyListPy α) :=
  .error .unboundLocal

/-! ## Concrete instances used by counterexamples and witnesses -/

/-- A dict whose recurrence always raises: every uncached read invokes
    fn, caches nothing, and propagates the exception. -/
def cexDict : LazyDict Nat Int := mkLazyDict (fun _ _ => none)

/-- A dict with the total recurrence i * i. -/
def okDict : LazyDict Nat Int := mkLazyDict (fun _ i => some (i * i))

/-- okDict after writing value 7 at key 5. -/
def okDictSet : LazyDict Nat Int :=
  { okDict with vals := fun j => if j = 5 then some 7 else okDict.vals j }

/-- The layered list of the claim about range-definitions, with a
    callable second definition: base D1 = callable g1 over
    slice(0, None, 1), then self[2:5] = g2 (a callable). -/
def layeredFn {α : Type} (g1 g2 : Int → α) : LazyListPy α :=
  LazyListPy.setslice (mkLazyList (.callable fun _ i => some (g1 i)))
    ⟨some 2, some 5, none⟩ (.callable fun _ i => some (g2 i))

/-- The layered list with a three-element indexable second definition:
    base D1 = callable g1, then self[2:5] = [u, v, w]. -/
def layeredIx {α : Type} (g1 : Int → α) (u v w : α) : LazyListPy α :=
  LazyListPy.setslice (mkLazyList (.callable fun _ i => some (g1 i)))
    ⟨some 2, some 5, none⟩ (.indexable (py_list_get [u, v, w]) (some 3))

/-- Concrete instance of layeredFn: D1 yields the index itself, D2
    yields 100 + relative position. -/
def cexLayered : LazyListPy Int := layeredFn (fun i => i) (fun i => 100 + i)

/-- A one-shot iterator source under a later total callable definition:
    registration-order evaluation consumes the iterator even though the
    later definition supplies the value. -/
def iterUnder {α : Type} (a b c : α) (g : Int → α) : LazyListPy α :=
  LazyListPy.setslice (mkLazyList (.iterable [a, b, c] none))
    ⟨some 0, none, none⟩ (.callable fun _ i => some (g i))

/-- The exhaustion scenario: a list built from a finite one-shot source
    of three elements and no other definition. -/
def exhList : LazyListPy Int := mkLazyList (.iterable [10, 20, 30] none)

/-- A list whose recurrence yields the index itself. -/
def idxList : LazyListPy Int := mkLazyList (.callable fun _ i => some i)

/-- idxList after reading index 1: its prefix is [0, 1]. -/
def idxList2 : LazyListPy Int := (LazyListPy.getidx idxList 1).2

/-- Two definitions with derivable lengths 5 and 3 and no cached length. -/
def lenList : LazyListPy Int :=
  LazyListPy.setslice (mkLazyList (.indexable (fun i => some i) (some 5)))
    ⟨some 0, none, none⟩ (.indexable (fun i => some i) (some 3))

/-- A single callable definition: no derivable length. -/
def unkLenList : LazyListPy Int := mkLazyList (.callable fun _ i => some i)

/-! ## Helper lemmas about the list engine -/

theorem get_next_arr {α : Type} (s : LazyListPy α) (idx : Int) :
    (get_next s idx).2.arr = s.arr := by
  simp only [get_next]
  split <;> rfl

theorem get_next_exhaust {α : Type} (s : LazyListPy α) (idx : Int)
    (h : (get_next_go s.arr idx s.nextgetters none).1 = none) :
    (get_next s idx).1 = none ∧ (get_next s idx).2.len_ = some idx := by
  simp [get_next, h]

theorem fill_to_go_extends {α : Type} :
    ∀ (fuel : Nat) (s : LazyListPy α) (idx : Int),
      ∃ t, (fill_to_go fuel s idx).2.arr = s.arr ++ t := by
  intro fuel
  induction fuel with
  | zero => intro s idx; exact ⟨[], by simp [fill_to_go]⟩
  | succ n ih =>
    intro s idx
    simp only [fill_to_go]
    split
    · exact ⟨[], by simp⟩
    · rcases hgn : get_next s (s.arr.length : Int) with ⟨res, s1⟩
      have harr : s1.arr = s.arr := by
        have h2 := get_next_arr s (s.arr.length : Int)
        rw [hgn] at h2
        exact h2
      cases res with
      | some v =>
        obtain ⟨t, ht⟩ := ih { s1 with arr := s1.arr ++ [v] } idx
        refine ⟨v :: t, ?_⟩
        show (fill_to_go n { s1 with arr := s1.arr ++ [v] } idx).2.arr = s.arr ++ v :: t
        rw [ht, harr]
        simp
      | none =>
        refine ⟨[], ?_⟩
        show s1.arr = s.arr ++ []
        simp [harr]

theorem fill_to_go_success {α : Type} :
    ∀ (fuel : Nat) (s : LazyListPy α) (idx : Int),
      (fill_to_go fuel s idx).1 = true →
      idx < ((fill_to_go fuel s idx).2.arr.length : Int) := by
  intro fuel
  induction fuel with
  | zero =>
    intro s idx h
    simp [fill_to_go] at h ⊢
    exact h
  | succ n ih =>
    intro s idx h
    rw [fill_to_go] at h ⊢
    by_cases hc : idx < (s.arr.length : Int)
    · simp only [if_pos hc]
      simpa using hc
    · simp only [if_neg hc] at h ⊢
      rcases hgn : get_next s (s.arr.length : Int) with ⟨res, s1⟩
      rw [hgn] at h
      cases res with
      | some v => exact ih _ idx h
      | none => simp at h

theorem fill_to_cached {α : Type} (s : LazyListPy α) (idx : Int)
    (h : idx < (s.arr.length : Int)) : fill_to s idx = (true, s) := by
  have hf : (idx + 1 - s.arr.length).toNat = 0 := by omega
  rw [fill_to, hf]
  simp [fill_to_go, h]

theorem getidx_cached {α : Type} (s : LazyListPy α) (i : Nat) (h : i < s.arr.length) :
    LazyListPy.getidx s i = (s.arr[i]?, s) := by
  rw [LazyListPy.getidx, fill_to_cached s i (by exact_mod_cast h)]
  have hneg : ¬((i : Int) < 0) := by omega
  have hlt : (i : Int) < (s.arr.length : Int) := by exact_mod_cast h
  simp [py_list_get, hneg, hlt, h]

theorem get_next_fst {α : Type} (s : LazyListPy α) (idx : Int) :
    (get_next s idx).1 = (get_next_go s.arr idx s.nextgetters none).1 := by
  simp only [get_next]
  rcases h : (get_next_go s.arr idx s.nextgetters none).1 with _ | v <;> simp [h]

theorem get_next_getters {α : Type} (s : LazyListPy α) (idx : Int) :
    (get_next s idx).2.nextgetters = (get_next_go s.arr idx s.nextgetters none).2.1 := by
  simp only [get_next]
  rcases h : (get_next_go s.arr idx s.nextgetters none).1 with _ | v <;> simp [h]

theorem sign_of_pos {x : Int} (h : 0 < x) : sign x = 1 := by
  unfold sign
  rw [if_neg (by omega), if_pos h]

theorem sign_of_neg {x : Int} (h : x < 0) : sign x = -1 := by
  unfold sign
  rw [if_pos h]

theorem get_idx_in_slice_all (idx : Int) (h : 0 ≤ idx) :
    get_idx_in_slice ⟨some 0, none, some 1⟩ idx = some idx := by
  simp only [get_idx_in_slice, defaulted_slice, Option.getD_some]
  by_cases h0 : idx = 0
  · simp [h0]
  · have hs : ¬ (sign (1 : Int) * sign (idx - 0) ≤ 0) := by
      rw [sign_of_pos (by omega), sign_of_pos (by omega : (0 : Int) < idx - 0)]
      omega
    simp only [h0, if_false, hs, Int.fmod_one, ne_eq, not_true_eq_false,
      Int.fdiv_one, sub_zero, if_neg (by omega : ¬ (1 : Int) = 0)]
    simp [hs]
    rw [sign_of_pos (by omega : (0 : Int) < 1), sign_of_pos (by omega : 0 < idx)]
    omega

theorem get_idx_in_slice_25 (idx : Int) :
    get_idx_in_slice ⟨some 2, some 5, none⟩ idx =
      if idx < 2 then none else some (idx - 2) := by
  simp only [get_idx_in_slice, defaulted_slice, Option.getD_some, Option.getD_none]
  by_cases h2 : idx = 2
  · norm_num [h2]
  · by_cases hlt : idx < 2
    · have hs : sign (1 : Int) * sign (idx - 2) ≤ 0 := by
        rw [sign_of_pos (by omega), sign_of_neg (by omega : idx - 2 < 0)]
        omega
      simp [h2, hlt, hs]
    · have hs : ¬ (sign (1 : Int) * sign (idx - 2) ≤ 0) := by
        rw [sign_of_pos (by omega), sign_of_pos (by omega : (0 : Int) < idx - 2)]
        omega
      simp [h2, hlt, hs, Int.fmod_one, Int.fdiv_one]

theorem getElem_snoc {α : Type} (l : List α) (a : α) (E : Int → α)
    (hl : ∀ (i : Nat) (hi : i < l.length), l[i] = E i) (ha : a = E l.length) :
    ∀ (i : Nat) (hi : i < (l ++ [a]).length), (l ++ [a])[i] = E i := by
  intro i hi
  simp only [List.length_append, List.length_cons, List.length_nil] at hi
  rcases Nat.lt_or_ge i l.length with hlt | hge
  · rw [List.getElem_append_left hlt]
    exact hl i hlt
  · have hieq : i = l.length := by omega
    rw [List.getElem_concat_length l a i hieq]
    rw [ha, hieq]

theorem fill_to_go_invariant {α : Type} (D : List (RangeDef α)) (E : Int → α)
    (hD : ∀ (arr : List α) (k : Nat),
      (get_next_go arr (k : Int) D none).1 = some (E k) ∧
      (get_next_go arr (k : Int) D none).2.1 = D) :
    ∀ (fuel : Nat) (s : LazyListPy α) (idx : Int),
      s.nextgetters = D →
      (∀ (i : Nat) (hi : i < s.arr.length), s.arr[i] = E i) →
      (fill_to_go fuel s idx).2.nextgetters = D ∧
      (∀ (i : Nat) (hi : i < (fill_to_go fuel s idx).2.arr.length),
        (fill_to_go fuel s idx).2.arr[i] = E i) ∧
      (idx < (s.arr.length : Int) + fuel → (fill_to_go fuel s idx).1 = true) := by
  intro fuel
  induction fuel with
  | zero =>
    intro s idx hs hvals
    refine ⟨hs, hvals, fun hlt => ?_⟩
    simp only [fill_to_go, Nat.cast_zero, add_zero] at hlt ⊢
    simpa using hlt
  | succ n ih =>
    intro s idx hs hvals
    rw [fill_to_go]
    by_cases hc : idx < (s.arr.length : Int)
    · rw [if_pos hc]
      exact ⟨hs, hvals, fun _ => rfl⟩
    · rw [if_neg hc]
      have h1 := (hD s.arr s.arr.length).1
      have h2 := (hD s.arr s.arr.length).2
      have hres : (get_next s (s.arr.length : Int)).1 = some (E s.arr.length) := by
        rw [get_next_fst, hs]
        exact h1
      have hget : (get_next s (s.arr.length : Int)).2.nextgetters = D := by
        rw [get_next_getters, hs]
        exact h2
      have harr : (get_next s (s.arr.length : Int)).2.arr = s.arr :=
        get_next_arr s (s.arr.length : Int)
      rcases hgn : get_next s (s.arr.length : Int) with ⟨res, s1⟩
      rw [hgn] at hres hget harr
      simp only at hres hget harr
      subst hres
      have hvals1 : ∀ (i : Nat) (hi : i < s1.arr.length), s1.arr[i] = E i := by
        intro i hi
        have hi2 : i < s.arr.length := by rw [← harr]; exact hi
        simp only [harr]
        exact hvals i hi2
      have hrec := ih { s1 with arr := s1.arr ++ [E (s.arr.length : Int)] } idx
        (by simpa using hget)
        (getElem_snoc s1.arr (E (s.arr.length : Int)) E hvals1 (by rw [harr]))
      obtain ⟨ga, gb, gc⟩ := hrec
      refine ⟨ga, gb, fun hlt => gc ?_⟩
      simp only [List.length_append, List.length_cons, List.length_nil, harr]
      push_cast at hlt ⊢
      omega

theorem getidx_invariant {α : Type} (D : List (RangeDef α)) (E : Int → α)
    (hD : ∀ (arr : List α) (k : Nat),
      (get_next_go arr (k : Int) D none).1 = some (E k) ∧
      (get_next_go arr (k : Int) D none).2.1 = D)
    (s : LazyListPy α) (hs : s.nextgetters = D)
    (hvals : ∀ (i : Nat) (hi : i < s.arr.length), s.arr[i] = E i) (k : Nat) :
    (LazyListPy.getidx s (k : Int)).1 = some (E (k : Int)) := by
  obtain ⟨hg, hv, hsucc⟩ :=
    fill_to_go_invariant D E hD (((k : Int) + 1 - s.arr.length).toNat) s (k : Int) hs hvals
  have htrue := hsucc (by omega)
  have hlen := fill_to_go_success (((k : Int) + 1 - s.arr.length).toNat) s (k : Int) htrue
  rw [LazyListPy.getidx, fill_to]
  rcases hft : fill_to_go (((k : Int) + 1 - s.arr.length).toNat) s (k : Int) with ⟨b, sf⟩
  rw [hft] at htrue hlen hv
  simp only at htrue hlen hv
  subst htrue
  have hklen : k < sf.arr.length := by exact_mod_cast hlen
  show py_list_get sf.arr (k : Int) = some (E (k : Int))
  have hneg : ¬ ((k : Int) < 0) := by omega
  have hklt : (k : Int) < (sf.arr.length : Int) := by exact_mod_cast hklen
  simp [py_list_get, hneg, hklt, hklen, hv k hklen]

theorem gn_layeredFn {α : Type} (g1 g2 : Int → α) (arr : List α) (k : Nat) :
    (get_next_go arr (k : Int) (layeredFn g1 g2).nextgetters none).1 =
      some (if (k : Int) < 2 then g1 (k : Int) else g2 ((k : Int) - 2)) ∧
    (get_next_go arr (k : Int) (layeredFn g1 g2).nextgetters none).2.1 =
      (layeredFn g1 g2).nextgetters := by
  have h0 : (0 : Int) ≤ (k : Int) := by positivity
  simp only [layeredFn, LazyListPy.setslice, mkLazyList, get_getter_and_len,
    List.cons_append, List.nil_append, get_next_go, get_next_with_getter,
    get_idx_in_slice_all _ h0, get_idx_in_slice_25, invoke_getter]
  by_cases hk : (k : Int) < 2
  · simp [hk]
  · simp [hk]

theorem gn_layeredIx {α : Type} (g1 : Int → α) (u v w : α) (arr : List α) (k : Nat) :
    (get_next_go arr (k : Int) (layeredIx g1 u v w).nextgetters none).1 =
      some (if (k : Int) < 2 then g1 (k : Int)
            else if (k : Int) = 2 then u
            else if (k : Int) = 3 then v
            else if (k : Int) = 4 then w
            else g1 (k : Int)) ∧
    (get_next_go arr (k : Int) (layeredIx g1 u v w).nextgetters none).2.1 =
      (layeredIx g1 u v w).nextgetters := by
  have h0 : (0 : Int) ≤ (k : Int) := by positivity
  simp only [layeredIx, LazyListPy.setslice, mkLazyList, get_getter_and_len,
    List.cons_append, List.nil_append, get_next_go, get_next_with_getter,
    get_idx_in_slice_all _ h0, get_idx_in_slice_25, invoke_getter]
  by_cases hk : (k : Int) < 2
  · simp [hk]
  · by_cases h2 : (k : Int) = 2
    · norm_num [hk, h2, py_list_get]
    · by_cases h3 : (k : Int) = 3
      · norm_num [hk, h2, h3, py_list_get]
      · by_cases h4 : (k : Int) = 4
        · norm_num [hk, h2, h3, h4, py_list_get]
          rfl
        · have h5 : ¬ (2 ≤ k ∧ (k : Int) - 2 < 3) := by omega
          simp [hk, h2, h3, h4, py_list_get, h5]

/-! ## Helper lemmas about the slice resolver and length computation -/

theorem gen_cons (stop : Option Int) (step ss idx : Int) (m : Nat)
    (h : slice_cond stop ss idx = true) :
    gen_slice_aux stop step ss idx (m + 1) =
      idx :: gen_slice_aux stop step ss (idx + step) m := by
  simp [gen_slice_aux, h]

theorem gen_2102_tail : ∀ m : Nat, gen_slice_aux (some 10) 2 (sign 2) 10 m = [] := by
  intro m
  cases m <;> rfl

theorem gen_slice_aux_get {stop : Option Int} {step ss : Int} :
    ∀ (fuel : Nat) (idx : Int) (p : Nat) (j : Int),
      (gen_slice_aux stop step ss idx fuel)[p]? = some j → j = idx + p * step := by
  intro fuel
  induction fuel with
  | zero => intro idx p j h; simp [gen_slice_aux] at h
  | succ n ih =>
    intro idx p j h
    rw [gen_slice_aux] at h
    by_cases hc : slice_cond stop ss idx = true
    · rw [if_pos hc] at h
      cases p with
      | zero =>
        simp only [List.getElem?_cons_zero, Option.some.injEq] at h
        subst h
        simp
      | succ q =>
        simp only [List.getElem?_cons_succ] at h
        have hih := ih (idx + step) q j h
        rw [hih]
        push_cast
        ring
    · rw [if_neg hc] at h
      simp at h

theorem locate_arith (s : PySlice) (p : Nat)
    (hstep : (defaulted_slice s).step.getD 0 ≠ 0) :
    get_idx_in_slice s
      ((defaulted_slice s).start.getD 0 + p * ((defaulted_slice s).step.getD 0)) =
      some (p : Int) := by
  simp only [get_idx_in_slice]
  cases p with
  | zero => simp
  | succ q =>
    have hq1 : ((q + 1 : Nat) : Int) ≠ 0 := by push_cast; omega
    have hprodne : ((q + 1 : Nat) : Int) * (defaulted_slice s).step.getD 0 ≠ 0 :=
      mul_ne_zero hq1 hstep
    have hne : (defaulted_slice s).start.getD 0 +
        ((q + 1 : Nat) : Int) * (defaulted_slice s).step.getD 0 ≠
        (defaulted_slice s).start.getD 0 := by
      intro hcon
      apply hprodne
      omega
    rw [if_neg hne, if_neg hstep]
    have hsub : (defaulted_slice s).start.getD 0 +
        ((q + 1 : Nat) : Int) * (defaulted_slice s).step.getD 0 -
        (defaulted_slice s).start.getD 0 =
        ((q + 1 : Nat) : Int) * (defaulted_slice s).step.getD 0 := by ring
    have hsign : ¬ (sign ((defaulted_slice s).step.getD 0) *
        sign ((defaulted_slice s).start.getD 0 +
          ((q + 1 : Nat) : Int) * (defaulted_slice s).step.getD 0 -
          (defaulted_slice s).start.getD 0) ≤ 0) := by
      rw [hsub]
      have hqpos : (0 : Int) < ((q + 1 : Nat) : Int) := by push_cast; omega
      rcases lt_trichotomy ((defaulted_slice s).step.getD 0) 0 with hneg | hzero | hpos
      · rw [sign_of_neg hneg, sign_of_neg (mul_neg_of_pos_of_neg hqpos hneg)]
        omega
      · exact absurd hzero hstep
      · rw [sign_of_pos hpos, sign_of_pos (mul_pos hqpos hpos)]
        omega
    rw [if_neg hsign, hsub]
    rw [Int.mul_fmod_left]
    rw [if_neg (by simp)]
    rw [Int.mul_fdiv_cancel _ hstep]

theorem set_len_go_none {α : Type} :
    ∀ (l : List (RangeDef α)) (ml : Option Int),
      (∃ d ∈ l, d.len = none) → set_len_go ml l = none := by
  intro l
  induction l with
  | nil => intro ml h; simp at h
  | cons d rest ih =>
    intro ml h
    rcases hd : d.len with _ | lv
    · simp [set_len_go, hd]
    · simp only [set_len_go, hd]
      apply ih
      rcases h with ⟨d1, hmem, hlen⟩
      rcases List.mem_cons.mp hmem with heq | hmem1
      · subst heq
        rw [hd] at hlen
        simp at hlen
      · exact ⟨d1, hmem1, hlen⟩

theorem set_len_go_spec {α : Type} :
    ∀ (l : List (RangeDef α)) (ml : Option Int), (∀ d ∈ l, d.len ≠ none) →
      ∃ r, set_len_go ml l = some r ∧
        (r = none ↔ (ml = none ∧ l = [])) ∧
        (∀ m, r = some m →
          (ml = some m ∨ ∃ d ∈ l, d.len = some m) ∧
          (∀ m0, ml = some m0 → m ≤ m0) ∧
          (∀ d ∈ l, ∀ k, d.len = some k → m ≤ k)) := by
  intro l
  induction l with
  | nil =>
    intro ml _
    refine ⟨ml, rfl, by simp, ?_⟩
    intro m hm
    refine ⟨Or.inl hm, ?_, by simp⟩
    intro m0 h0
    rw [hm] at h0
    injection h0 with h0
    omega
  | cons d rest ih =>
    intro ml hall
    have hd0 : d.len ≠ none := hall d (by simp)
    rcases hlen : d.len with _ | lv
    · exact absurd hlen hd0
    · have hall1 : ∀ d1 ∈ rest, d1.len ≠ none := fun d1 hm => hall d1 (by simp [hm])
      obtain ⟨r, hr, hnone, hmin⟩ := ih
        (match ml with
         | none => some lv
         | some m => if lv < m then some lv else some m) hall1
      refine ⟨r, ?_, ?_, ?_⟩
      · simp only [set_len_go, hlen]
        exact hr
      · rw [hnone]
        constructor
        · rintro ⟨hm, -⟩
          exfalso
          rcases ml with _ | m0
          · simp at hm
          · by_cases hlt : lv < m0 <;> simp [hlt] at hm
        · rintro ⟨-, hcon⟩
          exact absurd hcon (by simp)
      · intro m hm
        obtain ⟨horig, hb1, hb2⟩ := hmin m hm
        rcases ml with _ | m0
        · -- accumulator was none, became some lv
          refine ⟨?_, by intro m0 h0; simp at h0, ?_⟩
          · rcases horig with hacc | ⟨d1, hd1, hl1⟩
            · simp only at hacc
              injection hacc with hacc
              exact Or.inr ⟨d, by simp, by rw [hlen, hacc]⟩
            · exact Or.inr ⟨d1, by simp [hd1], hl1⟩
          · intro d1 hd1 k hk
            rcases List.mem_cons.mp hd1 with heq | hm1
            · subst heq
              rw [hlen] at hk
              injection hk with hk
              subst hk
              have := hb1 lv rfl
              omega
            · exact hb2 d1 hm1 k hk
        · -- accumulator was some m0
          by_cases hlt : lv < m0
          · simp only [if_pos hlt] at horig hb1
            refine ⟨?_, ?_, ?_⟩
            · rcases horig with hacc | ⟨d1, hd1, hl1⟩
              · injection hacc with hacc
                exact Or.inr ⟨d, by simp, by rw [hlen, hacc]⟩
              · exact Or.inr ⟨d1, by simp [hd1], hl1⟩
            · intro m1 h1
              injection h1 with h1
              have := hb1 lv rfl
              omega
            · intro d1 hd1 k hk
              rcases List.mem_cons.mp hd1 with heq | hm1
              · subst heq
                rw [hlen] at hk
                injection hk with hk
                have := hb1 lv rfl
                omega
              · exact hb2 d1 hm1 k hk
          · simp only [if_neg hlt] at horig hb1
            refine ⟨?_, ?_, ?_⟩
            · rcases horig with hacc | ⟨d1, hd1, hl1⟩
              · exact Or.inl hacc
              · exact Or.inr ⟨d1, by simp [hd1], hl1⟩
            · intro m1 h1
              injection h1 with h1
              have := hb1 m0 rfl
              omega
            · intro d1 hd1 k hk
              rcases List.mem_cons.mp hd1 with heq | hm1
              · subst heq
                rw [hlen] at hk
                injection hk with hk
                have := hb1 m0 rfl
                omega
              · exact hb2 d1 hm1 k hk

theorem getidx_of_fill_true {α : Type} (s s1 : LazyListPy α) (x : Int)
    (hf : fill_to s x = (true, s1)) :
    LazyListPy.getidx s x = (py_list_get s1.arr x, s1) := by
  rw [LazyListPy.getidx, hf]

theorem getidx_of_fill_false {α : Type} (s s1 : LazyListPy α) (x : Int)
    (hf : fill_to s x = (false, s1)) :
    LazyListPy.getidx s x = (none, s1) := by
  rw [LazyListPy.getidx, hf]

theorem py_list_set_get {α : Type} (xs : List α) (i : Int) (v : α) (ys : List α)
    (h : py_list_set xs i v = some ys) :
    ys.length = xs.length ∧ i < (xs.length : Int) ∧ py_list_get ys i = some v := by
  simp only [py_list_set] at h
  by_cases hc : 0 ≤ (if i < 0 then i + (xs.length : Int) else i) ∧
      (if i < 0 then i + (xs.length : Int) else i) < (xs.length : Int)
  · rw [if_pos hc] at h
    simp only [Option.some.injEq] at h
    subst h
    have hlen : (xs.set (if i < 0 then i + (xs.length : Int) else i).toNat v).length
        = xs.length := by simp
    have hilt : i < (xs.length : Int) := by
      by_cases hx0 : i < 0
      · have h0 : (0 : Int) ≤ (xs.length : Int) := by positivity
        omega
      · simp only [if_neg hx0] at hc
        exact hc.2
    refine ⟨hlen, hilt, ?_⟩
    simp only [py_list_get, hlen]
    rw [if_pos hc]
    have hjt : (if i < 0 then i + (xs.length : Int) else i).toNat < xs.length := by omega
    rw [List.getElem?_eq_getElem (by simpa using hjt)]
    rw [List.getElem_set_self]
  · rw [if_neg hc] at h
    simp at h

/-! ## Claims -/

/-- C1, counterexample to the claim as stated: the recurrence is NOT
    invoked at most once per index over the container's lifetime.  For a
    dict whose recurrence raises (fn always fails), reading index 0
    twice invokes the recurrence twice — each failed attempt caches
    nothing, so the next read invokes fn again. -/
theorem claim_C1_cex :
    (LazyDict.getidx (LazyDict.getidx cexDict 0).2 0).2.calls 0 = 2 ∧
    ¬ ((LazyDict.getidx (LazyDict.getidx cexDict 0).2 0).2.calls 0 ≤ 1) := by
  refine ⟨rfl, by decide⟩

/-- C1 (amended): once a value for index i is in the cache, subsequent
    reads of i return the cached value and never re-invoke the
    recurrence, no matter how many times i is read; only an invocation
    that fails (raises) leaves the cache unchanged, so that a later read
    of the same index invokes the recurrence again.  Parts: (1) a
    cached dict read returns the cached value with the state (including
    the invocation counters) unchanged; (2) after any successful dict
    read, reading again returns the same value and changes nothing;
    (3) a list read of an already-filled index returns the cached
    element with the state (including the counters) unchanged. -/
theorem claim_C1 :
    (∀ (κ α : Type) [DecidableEq κ] (d : LazyDict κ α) (i : κ) (v : α),
        d.vals i = some v → LazyDict.getidx d i = (some v, d)) ∧
    (∀ (κ α : Type) [DecidableEq κ] (d : LazyDict κ α) (i : κ) (v : α),
        (LazyDict.getidx d i).1 = some v →
        LazyDict.getidx (LazyDict.getidx d i).2 i = (some v, (LazyDict.getidx d i).2)) ∧
    (∀ (α : Type) (s : LazyListPy α) (i : Nat), i < s.arr.length →
        LazyListPy.getidx s (i : Int) = (s.arr[i]?, s)) := by
  refine ⟨?_, ?_, ?_⟩
  · intro κ α _ d i v h
    simp [LazyDict.getidx, h]
  · intro κ α _ d i v h
    rcases hv : d.vals i with _ | w
    · rcases hf : d.fn d.vals i with _ | w
      · rw [LazyDict.getidx, hv, hf] at h
        simp at h
      · have hx : LazyDict.getidx d i =
            (some w,
              { d with
                vals := fun j => if j = i then some w else d.vals j,
                calls := fun j => if j = i then d.calls j + 1 else d.calls j }) := by
          rw [LazyDict.getidx, hv, hf]
        rw [hx] at h ⊢
        simp only at h
        injection h with h
        subst h
        simp [LazyDict.getidx]
    · have hx : LazyDict.getidx d i = (some w, d) := by
        rw [LazyDict.getidx, hv]
      rw [hx] at h ⊢
      simp only at h
      injection h with h
      subst h
      exact hx
  · intro α s i h
    exact getidx_cached s i h

/-- C1 witness: concrete instances of the amended claim — a second dict
    read of an index just computed, and a list read of an index already
    in the prefix, both returning the cached value with state unchanged. -/
theorem claim_C1_witness :
    LazyDict.getidx (LazyDict.getidx okDict 5).2 5 = (some 25, (LazyDict.getidx okDict 5).2) ∧
    LazyListPy.getidx idxList2 1 = (idxList2.arr[1]?, idxList2) :=
  ⟨claim_C1.2.1 Nat Int okDict 5 25 (by rfl),
   claim_C1.2.2 Int idxList2 1 (by decide)⟩

/-- C3: writing a value to an index, then reading that index, returns
    exactly the written value without invoking the recurrence.  Dict
    part: after a successful single-key write, the read returns the
    written value with state unchanged (no fn invocation, even if a
    different value was cached before — the write overwrote it).  List
    part: after a successful setidx, the read returns the written value
    with state unchanged. -/
theorem claim_C3 :
    (∀ (κ α : Type) [DecidableEq κ] (d : LazyDict κ α) (i : κ) (v : α)
        (d2 : LazyDict κ α),
        dict_setitem d (PyKey.idx i) v = some d2 →
        LazyDict.getidx d2 i = (some v, d2)) ∧
    (∀ (α : Type) (s : LazyListPy α) (x : Int) (v : α),
        (LazyListPy.setidx s x v).1 = true →
        LazyListPy.getidx (LazyListPy.setidx s x v).2 x =
          (some v, (LazyListPy.setidx s x v).2)) := by
  constructor
  · intro κ α _ d i v d2 h
    simp only [dict_setitem, Option.some.injEq] at h
    subst h
    simp [LazyDict.getidx]
  · intro α s x v h
    rcases hf : fill_to s x with ⟨b, s1⟩
    cases b
    · have hx1 : LazyListPy.setidx s x v = (false, s1) := by
        rw [LazyListPy.setidx, hf]
      rw [hx1] at h
      simp at h
    · rcases hset : py_list_set s1.arr x v with _ | arr2
      · have hx1 : LazyListPy.setidx s x v = (false, s1) := by
          rw [LazyListPy.setidx, hf]
          simp [hset]
        rw [hx1] at h
        simp at h
      · have hsx : LazyListPy.setidx s x v = (true, { s1 with arr := arr2 }) := by
          rw [LazyListPy.setidx, hf]
          simp [hset]
        rw [hsx]
        obtain ⟨hlen, hilt, hget⟩ := py_list_set_get s1.arr x v arr2 hset
        have hx : x < ((({ s1 with arr := arr2 } : LazyListPy α).arr.length : Int)) := by
          show x < (arr2.length : Int)
          rw [hlen]
          exact hilt
        rw [getidx_of_fill_true _ _ x (fill_to_cached _ x hx)]
        simp only [Prod.mk.injEq, and_true]
        exact hget

/-- C3 witness: write 7 at key 5 of the square dict and read it back;
    write 42 at index 1 of the identity list and read it back. -/
theorem claim_C3_witness :
    LazyDict.getidx okDictSet 5 = (some 7, okDictSet) ∧
    ((LazyListPy.setidx idxList 1 42).1 = true ∧
      LazyListPy.getidx (LazyListPy.setidx idxList 1 42).2 1 =
        (some 42, (LazyListPy.setidx idxList 1 42).2)) :=
  ⟨claim_C3.1 Nat Int okDict 5 7 okDictSet (by rfl),
   ⟨by rfl, claim_C3.2 Int idxList 1 42 (by rfl)⟩⟩

/-- C4: assigning through a slice key on the dict raises (Python slice
    objects are unhashable, so the cache assignment itself fails) and
    performs no state update: the operation returns no successor state. -/
theorem claim_C4 (κ α : Type) [DecidableEq κ] (d : LazyDict κ α) (sl : PySlice)
    (v : α) : dict_setitem d (PyKey.slc sl) v = none := rfl

/-- C4 witness: concrete slice assignment on a concrete dict fails. -/
theorem claim_C4_witness :
    dict_setitem okDict (PyKey.slc ⟨some 0, some 3, none⟩) 1 = none :=
  claim_C4 Nat Int okDict ⟨some 0, some 3, none⟩ 1

/-- C5: after a successful read of index k, the cache arr contains all
    of indices 0..k (its length exceeds k), and the previous cache is
    preserved as a prefix — filling only ever appends, so index k is
    filled only after indices 0..k-1. -/
theorem claim_C5 (α : Type) (s : LazyListPy α) (k : Nat) (v : α)
    (h : (LazyListPy.getidx s (k : Int)).1 = some v) :
    k < (LazyListPy.getidx s (k : Int)).2.arr.length ∧
    (∃ t, (LazyListPy.getidx s (k : Int)).2.arr = s.arr ++ t) := by
  rcases hf : fill_to s (k : Int) with ⟨b, s1⟩
  have hext := fill_to_go_extends (((k : Int) + 1 - s.arr.length).toNat) s (k : Int)
  rw [show fill_to_go (((k : Int) + 1 - s.arr.length).toNat) s (k : Int) = fill_to s (k : Int)
      from rfl, hf] at hext
  cases b
  · rw [getidx_of_fill_false _ _ _ hf] at h
    simp at h
  · have hsucc := fill_to_go_success (((k : Int) + 1 - s.arr.length).toNat) s (k : Int)
      (by rw [show fill_to_go (((k : Int) + 1 - s.arr.length).toNat) s (k : Int) =
            fill_to s (k : Int) from rfl, hf])
    rw [show fill_to_go (((k : Int) + 1 - s.arr.length).toNat) s (k : Int) =
        fill_to s (k : Int) from rfl, hf] at hsucc
    rw [getidx_of_fill_true _ _ _ hf]
    constructor
    · exact_mod_cast hsucc
    · simpa using hext

/-- C5 witness: reading index 2 of the identity list fills 0..2. -/
theorem claim_C5_witness :
    2 < (LazyListPy.getidx idxList ((2 : Nat) : Int)).2.arr.length ∧
    (∃ t, (LazyListPy.getidx idxList ((2 : Nat) : Int)).2.arr = idxList.arr ++ t) :=
  claim_C5 Int idxList 2 2 (by rfl)

/-- C8: the code, not the claim, is at fault here — applying the
    absolute-value operator to a lazy container (dict or list) raises
    UnboundLocalError on the spurious first statement of __abs__ instead
    of returning a new lazy container. -/
theorem claim_C8 :
    (∀ (κ α : Type) (d : LazyDict κ α),
        LazyBase_abs_dict d = Except.error PyErr.unboundLocal) ∧
    (∀ (α : Type) (s : LazyListPy α),
        LazyBase_abs_list s = Except.error PyErr.unboundLocal) :=
  ⟨fun _ _ _ => rfl, fun _ _ => rfl⟩

/-- C2, counterexample to the claim as stated: with base definition D1
    (value = the index) and later D2 = a total callable (value = 100 +
    relative position) registered for slice(2, 5), reading index 5 does
    NOT revert to D1 — get_idx_in_slice ignores the slice's stop, so D2
    still covers index 5 (relative position 3) and, being registered
    last, its successful value 103 wins over D1's value 5. -/
theorem claim_C2_cex :
    (LazyListPy.getidx cexLayered 5).1 = some 103 ∧
    (LazyListPy.getidx cexLayered 5).1 ≠ some 5 := by
  refine ⟨rfl, by decide⟩

/-- C2 (amended): for a base definition D1 over the unbounded slice and
    a later D2 registered for slice [2, 5): indices 0 and 1 read D1's
    values and indices 2, 3, 4 read D2's values (last registered wins);
    reading index 5 and above yields D1's values again WHEN D2's getter
    abstains past relative position 2 (part 1: D2 a three-element
    indexable), but a D2 getter that also succeeds beyond the slice's
    stop keeps winning there, because the position-in-slice computation
    ignores stop (part 2: D2 a total callable).  Part 3: when computing
    a value, every covering definition is evaluated in registration
    order and the last successful result is kept — a one-shot source
    under a later total definition is still consumed even though the
    later definition supplies the value. -/
theorem claim_C2 :
    (∀ (α : Type) (g1 : Int → α) (u v w : α) (k : Nat),
        (LazyListPy.getidx (layeredIx g1 u v w) (k : Int)).1 =
          some (if (k : Int) < 2 then g1 (k : Int)
                else if (k : Int) = 2 then u
                else if (k : Int) = 3 then v
                else if (k : Int) = 4 then w
                else g1 (k : Int))) ∧
    (∀ (α : Type) (g1 g2 : Int → α) (k : Nat),
        (LazyListPy.getidx (layeredFn g1 g2) (k : Int)).1 =
          some (if (k : Int) < 2 then g1 (k : Int) else g2 ((k : Int) - 2))) ∧
    (∀ (α : Type) (a b c : α) (g : Int → α),
        (LazyListPy.getidx (iterUnder a b c g) 0).1 = some (g 0) ∧
        (LazyListPy.getidx (iterUnder a b c g) 0).2.nextgetters =
          [⟨⟨some 0, none, some 1⟩, .iter [b, c], none⟩,
           ⟨⟨some 0, none, none⟩, .fn (fun _ i => some (g i)), none⟩]) := by
  refine ⟨?_, ?_, ?_⟩
  · intro α g1 u v w k
    exact getidx_invariant (layeredIx g1 u v w).nextgetters
      (fun idx => if idx < 2 then g1 idx
                  else if idx = 2 then u
                  else if idx = 3 then v
                  else if idx = 4 then w
                  else g1 idx)
      (fun arr k => gn_layeredIx g1 u v w arr k)
      (layeredIx g1 u v w) rfl
      (by
        intro i hi
        simp [layeredIx, LazyListPy.setslice, mkLazyList] at hi)
      k
  · intro α g1 g2 k
    exact getidx_invariant (layeredFn g1 g2).nextgetters
      (fun idx => if idx < 2 then g1 idx else g2 (idx - 2))
      (fun arr k => gn_layeredFn g1 g2 arr k)
      (layeredFn g1 g2) rfl
      (by
        intro i hi
        simp [layeredFn, LazyListPy.setslice, mkLazyList] at hi)
      k
  · intro α a b c g
    exact ⟨rfl, rfl⟩

/-- C6: the exhaustion scenario.  Concrete part: a list built from a
    one-shot source of three elements, with no other definition, reads
    values at indices 0, 1, 2, while reading index 3 fills 0..2, then
    signals exhaustion, caches the final length 3 and leaves no value;
    fill_to reports the end-of-data to its caller.  General part: when
    no registered range-definition produces a value at a position,
    get_next caches that position as the final length and raises. -/
theorem claim_C6 :
    ((LazyListPy.getidx exhList 0).1 = some 10 ∧
     (LazyListPy.getidx (LazyListPy.getidx exhList 0).2 1).1 = some 20 ∧
     (LazyListPy.getidx (LazyListPy.getidx (LazyListPy.getidx exhList 0).2 1).2 2).1 =
       some 30 ∧
     (LazyListPy.getidx exhList 3).1 = none ∧
     (LazyListPy.getidx exhList 3).2.len_ = some 3 ∧
     (LazyListPy.getidx exhList 3).2.arr = [10, 20, 30] ∧
     (fill_to exhList 3).1 = false) ∧
    (∀ (α : Type) (s : LazyListPy α) (idx : Int),
        (get_next_go s.arr idx s.nextgetters none).1 = none →
        (get_next s idx).1 = none ∧ (get_next s idx).2.len_ = some idx) := by
  constructor
  · exact ⟨rfl, rfl, rfl, rfl, rfl, rfl, rfl⟩
  · intro α s idx h
    exact get_next_exhaust s idx h

/-- C6 witness: the exhausted three-element list applied to the general
    exhaustion statement at position 3. -/
theorem claim_C6_witness :
    (get_next (LazyListPy.getidx exhList 3).2 3).1 = none ∧
    (get_next (LazyListPy.getidx exhList 3).2 3).2.len_ = some 3 :=
  claim_C6.2 Int (LazyListPy.getidx exhList 3).2 3 (by rfl)

/-- C7, counterexample to the claim as stated: the produce/locate
    round-trip fails for a slice with step 0 and no stop, which repeats
    its start forever — position 1 of slice(0, None, 0) produces index
    0, but locate maps index 0 to position 0, not 1. -/
theorem claim_C7_cex :
    (generate_slice ⟨some 0, none, some 0⟩ 2)[1]? = some 0 ∧
    get_idx_in_slice ⟨some 0, none, some 0⟩ 0 ≠ some ((1 : Nat) : Int) := by
  decide

/-- C7 (amended): produce_indices over (2, 10, 2) yields exactly
    [2, 4, 6, 8] (for any fuel, the generator's output is the matching
    prefix of that list); locate on that slice sends 2, 4, 6, 8 to
    positions 0, 1, 2, 3 and 3, 5, 9 to none; and in general, for every
    slice whose defaulted step is nonzero, an index produced at position
    p is mapped back to p by locate, as (index - start) / step. -/
theorem claim_C7 :
    (∀ n : Nat, generate_slice ⟨some 2, some 10, some 2⟩ n = List.take n [2, 4, 6, 8]) ∧
    (get_idx_in_slice ⟨some 2, some 10, some 2⟩ 2 = some 0 ∧
     get_idx_in_slice ⟨some 2, some 10, some 2⟩ 4 = some 1 ∧
     get_idx_in_slice ⟨some 2, some 10, some 2⟩ 6 = some 2 ∧
     get_idx_in_slice ⟨some 2, some 10, some 2⟩ 8 = some 3 ∧
     get_idx_in_slice ⟨some 2, some 10, some 2⟩ 3 = none ∧
     get_idx_in_slice ⟨some 2, some 10, some 2⟩ 5 = none ∧
     get_idx_in_slice ⟨some 2, some 10, some 2⟩ 9 = none) ∧
    (∀ (s : PySlice) (fuel p : Nat) (i : Int),
        (defaulted_slice s).step.getD 0 ≠ 0 →
        (generate_slice s fuel)[p]? = some i →
        get_idx_in_slice s i = some (p : Int)) := by
  refine ⟨?_, by decide, ?_⟩
  · intro n
    rcases n with _ | n
    · rfl
    rcases n with _ | n
    · rfl
    rcases n with _ | n
    · rfl
    rcases n with _ | n
    · rfl
    rw [List.take_of_length_le (by simp)]
    show gen_slice_aux (some 10) 2 (sign 2) 2 (n + 3 + 1) = [2, 4, 6, 8]
    rw [gen_cons (some 10) 2 (sign 2) 2 (n + 3) (by rfl)]
    show (2 : Int) :: gen_slice_aux (some 10) 2 (sign 2) 4 (n + 2 + 1) = [2, 4, 6, 8]
    rw [gen_cons (some 10) 2 (sign 2) 4 (n + 2) (by rfl)]
    show (2 : Int) :: 4 :: gen_slice_aux (some 10) 2 (sign 2) 6 (n + 1 + 1) = [2, 4, 6, 8]
    rw [gen_cons (some 10) 2 (sign 2) 6 (n + 1) (by rfl)]
    show (2 : Int) :: 4 :: 6 :: gen_slice_aux (some 10) 2 (sign 2) 8 (n + 1) = [2, 4, 6, 8]
    rw [gen_cons (some 10) 2 (sign 2) 8 n (by rfl)]
    show (2 : Int) :: 4 :: 6 :: 8 :: gen_slice_aux (some 10) 2 (sign 2) 10 n = [2, 4, 6, 8]
    rw [gen_2102_tail n]
  · intro s fuel p i hstep hget
    have hform : (gen_slice_aux (defaulted_slice s).stop ((defaulted_slice s).step.getD 0)
        (sign ((defaulted_slice s).step.getD 0)) ((defaulted_slice s).start.getD 0)
        fuel)[p]? = some i := hget
    have hval := gen_slice_aux_get fuel ((defaulted_slice s).start.getD 0) p i hform
    rw [hval]
    exact locate_arith s p hstep

/-- C7 witness: position 3 of slice (2, 10, 2) produces 8 and locate
    sends 8 back to position 3. -/
theorem claim_C7_witness :
    get_idx_in_slice ⟨some 2, some 10, some 2⟩ 8 = some ((3 : Nat) : Int) :=
  claim_C7.2.2 ⟨some 2, some 10, some 2⟩ 10 3 8 (by decide) (by decide)

/-- C9: with the cached length unset, the length query propagates an
    unknown definition length as unknown (leaving len_ unset), and
    otherwise computes and caches the minimum of the definitions'
    lengths (none exactly for an empty definition list); the numeric
    size surface coerces an unknown length to zero. -/
theorem claim_C9 :
    (∀ (α : Type) (s : LazyListPy α), s.len_ = none →
        (∃ d ∈ s.nextgetters, d.len = none) →
        (actual_len s).1 = none ∧ (actual_len s).2.len_ = none) ∧
    (∀ (α : Type) (s : LazyListPy α), s.len_ = none →
        (∀ d ∈ s.nextgetters, d.len ≠ none) →
        (actual_len s).2.len_ = (actual_len s).1 ∧
        ((actual_len s).1 = none ↔ s.nextgetters = []) ∧
        (∀ mm, (actual_len s).1 = some mm →
          (∃ d ∈ s.nextgetters, d.len = some mm) ∧
          (∀ d ∈ s.nextgetters, ∀ k, d.len = some k → mm ≤ k))) ∧
    (∀ (α : Type) (s : LazyListPy α), (py_len s).1 = ((actual_len s).1).getD 0) ∧
    (∀ (α : Type) (s : LazyListPy α), (actual_len s).1 = none → (py_len s).1 = 0) := by
  refine ⟨?_, ?_, ?_, ?_⟩
  · intro α s h hnone
    have hset : set_len_go s.len_ s.nextgetters = none :=
      set_len_go_none s.nextgetters s.len_ hnone
    have hsetlen : set_len s = s := by rw [set_len, hset]
    constructor <;> simp [actual_len, h, hsetlen]
  · intro α s h hall
    obtain ⟨r, hr, hnone, hmin⟩ := set_len_go_spec s.nextgetters s.len_ hall
    have hsetlen : set_len s = { s with len_ := r } := by rw [set_len, hr]
    have hal : actual_len s = (r, { s with len_ := r }) := by
      rw [actual_len, if_pos h, hsetlen]
    rw [hal]
    refine ⟨rfl, ?_, ?_⟩
    · rw [hnone, h]
      simp
    · intro mm hmm
      simp only at hmm
      obtain ⟨horig, -, hb2⟩ := hmin mm hmm
      refine ⟨?_, hb2⟩
      rcases horig with hacc | hex
      · rw [h] at hacc
        exact absurd hacc (by simp)
      · exact hex
  · intro α s
    rfl
  · intro α s h
    have hpy : (py_len s).1 = ((actual_len s).1).getD 0 := rfl
    rw [hpy, h]
    rfl

/-- C9 witness: two definitions with lengths 5 and 3 give cached length
    3; a single callable definition gives unknown length and numeric
    size 0. -/
theorem claim_C9_witness :
    ((actual_len lenList).2.len_ = (actual_len lenList).1 ∧
      (actual_len lenList).1 = some 3) ∧
    ((actual_len unkLenList).1 = none ∧ (actual_len unkLenList).2.len_ = none) ∧
    (py_len unkLenList).1 = 0 :=
  ⟨⟨(claim_C9.2.1 Int lenList rfl (by
      intro d hd
      simp only [lenList, LazyListPy.setslice, mkLazyList, get_getter_and_len,
        List.cons_append, List.nil_append, List.mem_cons,
        List.not_mem_nil, or_false, List.mem_singleton] at hd
      rcases hd with rfl | rfl <;> simp)).1, rfl⟩,
   claim_C9.1 Int unkLenList rfl
     ⟨⟨⟨some 0, none, some 1⟩, .fn (fun _ i => some i), none⟩,
      by simp [unkLenList, mkLazyList, get_getter_and_len], rfl⟩,
   claim_C9.2.2.2 Int unkLenList (by rfl)⟩

/-- C10: reading a negative index -j from a list triggers no filling or
    getter evaluation — the state is returned unchanged; with prefix
    length n, the read returns the element at position n - j when
    1 ≤ j ≤ n and fails (raises IndexError) when j > n, even if the
    registered definitions could produce values. -/
theorem claim_C10 (α : Type) (s : LazyListPy α) (j : Nat) (hj : 1 ≤ j) :
    (LazyListPy.getidx s (-(j : Int))).2 = s ∧
    (j ≤ s.arr.length →
      (LazyListPy.getidx s (-(j : Int))).1 = s.arr[s.arr.length - j]?) ∧
    (s.arr.length < j → (LazyListPy.getidx s (-(j : Int))).1 = none) := by
  have h0 : (0 : Int) ≤ (s.arr.length : Int) := by positivity
  have hneg : (-(j : Int)) < 0 := by omega
  have hfill : fill_to s (-(j : Int)) = (true, s) := fill_to_cached s _ (by omega)
  rw [getidx_of_fill_true _ _ _ hfill]
  refine ⟨rfl, ?_, ?_⟩
  · intro hle
    simp only [py_list_get, if_pos hneg]
    have hc : (0 : Int) ≤ -(j : Int) + (s.arr.length : Int) ∧
        -(j : Int) + (s.arr.length : Int) < (s.arr.length : Int) := by
      constructor <;> omega
    rw [if_pos hc]
    have ht : ((-(j : Int)) + (s.arr.length : Int)).toNat = s.arr.length - j := by omega
    rw [ht]
  · intro hgt
    simp only [py_list_get, if_pos hneg]
    have hc : ¬ ((0 : Int) ≤ -(j : Int) + (s.arr.length : Int) ∧
        -(j : Int) + (s.arr.length : Int) < (s.arr.length : Int)) := by
      rintro ⟨ha, hb⟩
      omega
    rw [if_neg hc]

/-- C10 witness: on the prefix [0, 1], reading index -1 returns the last
    element and leaves the state untouched. -/
theorem claim_C10_witness :
    (LazyListPy.getidx idxList2 (-((1 : Nat) : Int))).2 = idxList2 ∧
    (LazyListPy.getidx idxList2 (-((1 : Nat) : Int))).1 =
      idxList2.arr[idxList2.arr.length - 1]? :=
  ⟨(claim_C10 Int idxList2 1 (by decide)).1,
   (claim_C10 Int idxList2 1 (by decide)).2.1 (by decide)⟩
